import Mathlib

/-!
Verification of the expiring key/value cache engine (`src/cache.rs`).

The embedding mirrors the Rust source:
* `Instant` is modelled as `Nat` (only comparisons against `now` are used).
* `HashMap<K, CachedValue<V>>` is modelled as a function `K → Option (CachedValue V)`.
* `BTreeSet<Expiration<K>>` is modelled as a list kept sorted (strictly
  ascending) in the derived lexicographic order `(expires, key)`, which is the
  order of the derived `Ord` on the Rust struct `Expiration { expires, key }`.
* Each operation that calls `Instant::now()` takes the observed `now : Nat`
  as an explicit argument.
-/

/-- Rust struct `CachedValue<V> { value, expires }`. -/
structure CachedValue (V : Type) where
  value : V
  expires : Option Nat
deriving DecidableEq, Repr

/-- Rust struct `Expiration<K> { expires, key }`, the element of the ordered
index. Field order matters: the derived Rust `Ord` compares `expires` first,
then `key`. -/
structure Expiration (K : Type) where
  expires : Nat
  key : K
deriving DecidableEq, Repr

variable {K : Type} [LinearOrder K] {V : Type}

/-- The strict lexicographic order on expiration records: by instant first,
then by key, matching the derived `Ord` on the Rust struct. -/
def expLt (a b : Expiration K) : Prop :=
  a.expires < b.expires ∨ (a.expires = b.expires ∧ a.key < b.key)

instance (a b : Expiration K) : Decidable (expLt a b) := by
  unfold expLt; infer_instance

/-- Insertion into the sorted, duplicate-free list modelling `BTreeSet`. -/
def btInsert (x : Expiration K) : List (Expiration K) → List (Expiration K)
  | [] => [x]
  | y :: ys =>
    if x = y then y :: ys
    else if expLt x y then x :: y :: ys
    else y :: btInsert x ys

/-- Removal from the set modelling `BTreeSet::remove` (the list is
duplicate-free, so filtering out the element is exact removal). -/
def btRemove (x : Expiration K) (l : List (Expiration K)) : List (Expiration K) :=
  l.filter (fun r => r ≠ x)

/-- Functional model of `HashMap::insert` (the map after the call). -/
def mapInsert [DecidableEq K] (key : K) (v : CachedValue V)
    (m : K → Option (CachedValue V)) : K → Option (CachedValue V) :=
  fun k => if k = key then some v else m k

/-- Functional model of `HashMap::remove` (the map after the call). -/
def mapRemove [DecidableEq K] (key : K)
    (m : K → Option (CachedValue V)) : K → Option (CachedValue V) :=
  fun k => if k = key then none else m k

/-- Rust struct `Cache<K, V> { map, expirations }`. -/
structure Cache (K V : Type) where
  map : K → Option (CachedValue V)
  expirations : List (Expiration K)

/-- `Cache::default()`: empty map, empty index. -/
def Cache.empty : Cache K V :=
  ⟨fun _ => none, []⟩

/-- The first conditional of `Cache::put_exp` (`src/cache.rs` lines 48-55):
if `map.insert` returned an old entry that had an expiration, remove its
record from the index; this is the index after that step. -/
def removeOldRecord (c : Cache K V) (key : K) : List (Expiration K) :=
  match c.map key with
  | some old =>
    match old.expires with
    | some e => btRemove ⟨e, key⟩ c.expirations
    | none => c.expirations
  | none => c.expirations

/-- The insertion phase of `Cache::put_exp` (`src/cache.rs` lines 48-59):
insert the new entry into the map; if the old entry had an expiration,
remove its record from the index; if the new entry has one, insert its
record. -/
def insertPhase (c : Cache K V) (key : K) (value : V) (expires : Option Nat) :
    Cache K V :=
  ⟨mapInsert key ⟨value, expires⟩ c.map,
   match expires with
   | some e => btInsert ⟨e, key⟩ (removeOldRecord c key)
   | none => removeOldRecord c key⟩

/-- The records collected by the sweep in `Cache::put_exp` (lines 61-67):
the prefix of the ordered index whose instants are `<= now`. -/
def expiredItems (c : Cache K V) (now : Nat) : List (Expiration K) :=
  c.expirations.takeWhile (fun item => decide (item.expires ≤ now))

/-- The sweep loop of `Cache::put_exp` (lines 69-72): for each expired
record, remove the table entry and the index record. -/
def sweep (c : Cache K V) (now : Nat) : Cache K V :=
  let expired := expiredItems c now
  ⟨expired.foldl (fun m item => mapRemove item.key m) c.map,
   expired.foldl (fun l item => btRemove item l) c.expirations⟩

/-- `Cache::put_exp` (`src/cache.rs` lines 47-73), with the observed
`Instant::now()` passed as `now`. -/
def Cache.put_exp (c : Cache K V) (key : K) (value : V) (expires : Option Nat)
    (now : Nat) : Cache K V :=
  sweep (insertPhase c key value expires) now

/-- `Cache::put` (`src/cache.rs` lines 42-44). -/
def Cache.put (c : Cache K V) (key : K) (value : V) (now : Nat) : Cache K V :=
  c.put_exp key value none now

/-- `Cache::get` (`src/cache.rs` lines 76-87), with the observed
`Instant::now()` passed as `now`. -/
def Cache.get (c : Cache K V) (key : K) (now : Nat) : Option V :=
  (c.map key).bind fun cached =>
    match cached.expires with
    | some e => if e ≤ now then none else some cached.value
    | none => some cached.value

/-- `Cache::delete` (`src/cache.rs` lines 90-99). -/
def Cache.delete (c : Cache K V) (key : K) : Cache K V :=
  match c.map key with
  | some old =>
    match old.expires with
    | some e => ⟨mapRemove key c.map, btRemove ⟨e, key⟩ c.expirations⟩
    | none => ⟨mapRemove key c.map, c.expirations⟩
  | none => c

/-- An operation on the cache, together with the `now` its call observes. -/
inductive Op (K V : Type) where
  | put (key : K) (value : V) (now : Nat)
  | put_exp (key : K) (value : V) (expires : Option Nat) (now : Nat)
  | get (key : K) (now : Nat)
  | delete (key : K)

/-- State transition of one operation. `get` takes `&self` in the source and
returns a borrowed value, so its state transition is the identity. -/
def applyOp (c : Cache K V) : Op K V → Cache K V
  | Op.put key value now => c.put key value now
  | Op.put_exp key value expires now => c.put_exp key value expires now
  | Op.get _ _ => c
  | Op.delete key => c.delete key

/-- Run a sequence of operations from the empty cache. -/
def run (ops : List (Op K V)) : Cache K V :=
  ops.foldl applyOp Cache.empty

/-- Index exactness: the records of the index are exactly the pairs
`(e, k)` such that the table maps `k` to an entry with `expires = some e`. -/
def Exact (m : K → Option (CachedValue V)) (l : List (Expiration K)) : Prop :=
  ∀ r : Expiration K, r ∈ l ↔ ∃ v, m r.key = some ⟨v, some r.expires⟩

/-- The representation invariant of every reachable cache state: the index
is strictly sorted in the record order (hence duplicate-free, as in
`BTreeSet`), and it is exact for the table. -/
def CacheInv (c : Cache K V) : Prop :=
  c.expirations.Pairwise expLt ∧ Exact c.map c.expirations

/-! ### Order facts about `expLt` -/

theorem expLt_irrefl (a : Expiration K) : ¬ expLt a a := by
  simp [expLt]

theorem expLt_trans {a b c : Expiration K} (h1 : expLt a b) (h2 : expLt b c) :
    expLt a c := by
  rcases h1 with h1 | ⟨h1e, h1k⟩ <;> rcases h2 with h2 | ⟨h2e, h2k⟩
  · exact Or.inl (lt_trans h1 h2)
  · exact Or.inl (h2e ▸ h1)
  · exact Or.inl (h1e ▸ h2)
  · exact Or.inr ⟨h1e.trans h2e, lt_trans h1k h2k⟩

theorem expLt_of_ne_of_not_lt {a b : Expiration K} (hne : a ≠ b)
    (h : ¬ expLt a b) : expLt b a := by
  rcases lt_trichotomy a.expires b.expires with he | he | he
  · exact absurd (Or.inl he) h
  · rcases lt_trichotomy a.key b.key with hk | hk | hk
    · exact absurd (Or.inr ⟨he, hk⟩) h
    · exact absurd (by cases a; cases b; simp_all) hne
    · exact Or.inr ⟨he.symm, hk⟩
  · exact Or.inl he

/-! ### `btInsert` and `btRemove` lemmas -/

theorem mem_btInsert {x r : Expiration K} {l : List (Expiration K)} :
    r ∈ btInsert x l ↔ r = x ∨ r ∈ l := by
  induction l with
  | nil => simp [btInsert]
  | cons y ys ih =>
    simp only [btInsert]
    split_ifs with hxy hlt
    · subst hxy
      simp only [List.mem_cons]
      tauto
    · simp only [List.mem_cons]
    · simp only [List.mem_cons, ih]
      tauto

theorem pairwise_btInsert {x : Expiration K} {l : List (Expiration K)}
    (hs : l.Pairwise expLt) : (btInsert x l).Pairwise expLt := by
  induction l with
  | nil => simp [btInsert]
  | cons y ys ih =>
    rcases List.pairwise_cons.mp hs with ⟨hy, hys⟩
    simp only [btInsert]
    split_ifs with hxy hlt
    · exact hs
    · refine List.pairwise_cons.mpr ⟨?_, hs⟩
      intro z hz
      rcases List.mem_cons.mp hz with rfl | hz
      · exact hlt
      · exact expLt_trans hlt (hy z hz)
    · refine List.pairwise_cons.mpr ⟨?_, ih hys⟩
      intro z hz
      rcases mem_btInsert.mp hz with rfl | hz
      · exact expLt_of_ne_of_not_lt hxy hlt
      · exact hy z hz

theorem mem_btRemove {x r : Expiration K} {l : List (Expiration K)} :
    r ∈ btRemove x l ↔ r ∈ l ∧ r ≠ x := by
  simp [btRemove, List.mem_filter]

theorem pairwise_btRemove {x : Expiration K} {l : List (Expiration K)}
    (hs : l.Pairwise expLt) : (btRemove x l).Pairwise expLt :=
  List.Pairwise.sublist (List.filter_sublist l) hs

/-! ### Sweep prefix and fold characterizations -/

theorem mem_expiredItems_of_le {c : Cache K V} {now : Nat}
    (hs : c.expirations.Pairwise expLt) {r : Expiration K}
    (hr : r ∈ c.expirations) (hle : r.expires ≤ now) :
    r ∈ expiredItems c now := by
  unfold expiredItems
  rcases c with ⟨m, l⟩
  simp only at hs hr ⊢
  clear m
  induction l with
  | nil => simp at hr
  | cons y ys ih =>
    rcases List.pairwise_cons.mp hs with ⟨hy, hys⟩
    rcases List.mem_cons.mp hr with rfl | hr
    · rw [List.takeWhile_cons_of_pos (by simpa using hle)]
      exact List.mem_cons_self _ _
    · have hyr : expLt y r := hy r hr
      have hyle : y.expires ≤ now := by
        rcases hyr with h | ⟨h, _⟩
        · exact le_of_lt (lt_of_lt_of_le h hle)
        · exact h ▸ hle
      rw [List.takeWhile_cons_of_pos (by simpa using hyle)]
      exact List.mem_cons_of_mem _ (ih hys hr)

theorem mem_expiredItems_le {c : Cache K V} {now : Nat} {r : Expiration K}
    (hr : r ∈ expiredItems c now) : r.expires ≤ now := by
  have := List.mem_takeWhile_imp hr
  simpa using this

theorem expiredItems_sublist (c : Cache K V) (now : Nat) :
    (expiredItems c now).Sublist c.expirations :=
  List.takeWhile_sublist _

theorem foldl_mapRemove_eq (xs : List (Expiration K))
    (m : K → Option (CachedValue V)) (k : K) :
    (xs.foldl (fun m item => mapRemove item.key m) m) k =
      if ∃ item ∈ xs, item.key = k then none else m k := by
  induction xs generalizing m with
  | nil => simp
  | cons x xs ih =>
    rw [List.foldl_cons, ih]
    have hcons : (∃ item ∈ x :: xs, item.key = k) ↔
        (x.key = k ∨ ∃ item ∈ xs, item.key = k) :=
      List.exists_mem_cons_iff _ _ _
    by_cases hxs : ∃ item ∈ xs, item.key = k
    · rw [if_pos hxs, if_pos (hcons.mpr (Or.inr hxs))]
    · rw [if_neg hxs]
      simp only [mapRemove]
      by_cases hx : x.key = k
      · rw [if_pos (hcons.mpr (Or.inl hx)), if_pos hx.symm]
      · have h1 : ¬ (k = x.key) := fun h => hx h.symm
        have h2 : ¬ ∃ item ∈ x :: xs, item.key = k := by
          intro h
          rcases hcons.mp h with h | h
          · exact hx h
          · exact hxs h
        rw [if_neg h1, if_neg h2]

theorem foldl_btRemove_eq (xs l : List (Expiration K)) :
    (xs.foldl (fun l item => btRemove item l) l) =
      l.filter (fun r => decide (r ∉ xs)) := by
  induction xs generalizing l with
  | nil => simp
  | cons x xs ih =>
    rw [List.foldl_cons, ih]
    simp only [btRemove, List.filter_filter]
    congr 1
    funext r
    by_cases hx : r = x <;> by_cases hxs : r ∈ xs <;> simp [hx, hxs]

/-! ### Invariant preservation: insertion phase -/

theorem exact_expires_eq {c : Cache K V} (hx : Exact c.map c.expirations)
    {r : Expiration K} (hr : r ∈ c.expirations) {cv : CachedValue V}
    (hm : c.map r.key = some cv) : cv.expires = some r.expires := by
  rcases (hx r).mp hr with ⟨v, hv⟩
  rw [hm] at hv
  cases hv
  rfl

theorem mem_removeOldRecord {c : Cache K V} (hx : Exact c.map c.expirations)
    {key : K} {r : Expiration K} :
    r ∈ removeOldRecord c key ↔ r ∈ c.expirations ∧ r.key ≠ key := by
  rcases hm : c.map key with _ | ⟨v₀, e₀⟩
  · simp only [removeOldRecord, hm]
    constructor
    · intro hr
      refine ⟨hr, fun hk => ?_⟩
      rcases (hx r).mp hr with ⟨v, hv⟩
      rw [hk, hm] at hv
      cases hv
    · exact And.left
  · rcases e₀ with _ | e₀
    · simp only [removeOldRecord, hm]
      constructor
      · intro hr
        refine ⟨hr, fun hk => ?_⟩
        have := exact_expires_eq hx hr (hk ▸ hm)
        cases this
      · exact And.left
    · simp only [removeOldRecord, hm, mem_btRemove]
      constructor
      · rintro ⟨hr, hne⟩
        refine ⟨hr, fun hk => ?_⟩
        have he := exact_expires_eq hx hr (hk ▸ hm)
        apply hne
        cases r
        simp_all
      · rintro ⟨hr, hk⟩
        refine ⟨hr, fun he => ?_⟩
        apply hk
        rw [he]
    
theorem pairwise_removeOldRecord {c : Cache K V}
    (hs : c.expirations.Pairwise expLt) (key : K) :
    (removeOldRecord c key).Pairwise expLt := by
  unfold removeOldRecord
  rcases c.map key with _ | ⟨v₀, e₀⟩
  · exact hs
  · rcases e₀ with _ | e₀
    · exact hs
    · exact pairwise_btRemove hs

theorem insertPhase_pairwise {c : Cache K V}
    (hs : c.expirations.Pairwise expLt) (key : K) (value : V)
    (expires : Option Nat) :
    (insertPhase c key value expires).expirations.Pairwise expLt := by
  rcases expires with _ | e
  · exact pairwise_removeOldRecord hs key
  · exact pairwise_btInsert (pairwise_removeOldRecord hs key)

theorem insertPhase_exact {c : Cache K V} (h : CacheInv c) (key : K)
    (value : V) (expires : Option Nat) :
    Exact (insertPhase c key value expires).map
      (insertPhase c key value expires).expirations := by
  obtain ⟨hs, hx⟩ := h
  intro r
  rcases expires with _ | e
  · simp only [insertPhase, mapInsert, mem_removeOldRecord hx]
    by_cases hk : r.key = key
    · simp only [hk, ne_eq, not_true_eq_false, and_false, if_pos rfl,
        false_iff, not_exists]
      intro v hv
      cases hv
    · rw [if_neg hk]
      simp only [ne_eq, hk, not_false_eq_true, and_true]
      exact hx r
  · simp only [insertPhase, mapInsert, mem_btInsert, mem_removeOldRecord hx]
    by_cases hk : r.key = key
    · simp only [hk, ne_eq, not_true_eq_false, and_false, or_false,
        if_pos rfl]
      constructor
      · rintro rfl
        exact ⟨value, rfl⟩
      · rintro ⟨v, hv⟩
        cases hv
        cases r
        simp_all
    · rw [if_neg hk]
      have hne : r ≠ ⟨e, key⟩ := fun h => hk (by rw [h])
      simp only [hne, false_or, ne_eq, hk, not_false_eq_true, and_true]
      exact hx r

/-! ### Invariant preservation: sweep -/

theorem sweep_map_eq (c : Cache K V) (now : Nat) (k : K) :
    (sweep c now).map k =
      if ∃ item ∈ expiredItems c now, item.key = k then none else c.map k :=
  foldl_mapRemove_eq _ _ _

theorem sweep_exps_eq (c : Cache K V) (now : Nat) :
    (sweep c now).expirations =
      c.expirations.filter (fun r => decide (r ∉ expiredItems c now)) :=
  foldl_btRemove_eq _ _

theorem mem_sweep_exps {c : Cache K V} {now : Nat} {r : Expiration K} :
    r ∈ (sweep c now).expirations ↔
      r ∈ c.expirations ∧ r ∉ expiredItems c now := by
  rw [sweep_exps_eq]
  simp [List.mem_filter]

theorem sweep_pairwise {c : Cache K V} (now : Nat)
    (hs : c.expirations.Pairwise expLt) :
    (sweep c now).expirations.Pairwise expLt := by
  rw [sweep_exps_eq]
  exact List.Pairwise.sublist (List.filter_sublist _) hs

theorem sweep_exact {c : Cache K V} {now : Nat}
    (hx : Exact c.map c.expirations) :
    Exact (sweep c now).map (sweep c now).expirations := by
  intro r
  rw [mem_sweep_exps, sweep_map_eq]
  constructor
  · rintro ⟨hr, hnp⟩
    rw [if_neg ?_]
    · exact (hx r).mp hr
    · rintro ⟨item, hitem, hkey⟩
      have hitem_mem : item ∈ c.expirations :=
        (expiredItems_sublist c now).mem hitem
      rcases (hx r).mp hr with ⟨v, hv⟩
      have he : r.expires = item.expires :=
        Option.some.inj (exact_expires_eq hx hitem_mem (hkey.symm ▸ hv))
      have : item = r := by
        cases item
        cases r
        simp_all
      exact hnp (this ▸ hitem)
  · intro hm
    by_cases hp : ∃ item ∈ expiredItems c now, item.key = r.key
    · rw [if_pos hp] at hm
      rcases hm with ⟨v, hv⟩
      cases hv
    · rw [if_neg hp] at hm
      refine ⟨(hx r).mpr hm, fun hr => hp ⟨r, hr, rfl⟩⟩

/-! ### Invariant preservation: operations -/

theorem put_exp_inv {c : Cache K V} (h : CacheInv c) (key : K) (value : V)
    (expires : Option Nat) (now : Nat) :
    CacheInv (c.put_exp key value expires now) := by
  have hp := insertPhase_pairwise h.1 key value expires
  exact ⟨sweep_pairwise now hp, sweep_exact (insertPhase_exact h key value expires)⟩

theorem put_inv {c : Cache K V} (h : CacheInv c) (key : K) (value : V)
    (now : Nat) : CacheInv (c.put key value now) :=
  put_exp_inv h key value none now

theorem delete_inv {c : Cache K V} (h : CacheInv c) (key : K) :
    CacheInv (c.delete key) := by
  obtain ⟨hs, hx⟩ := h
  rcases hm : c.map key with _ | ⟨v₀, e₀⟩
  · simp only [Cache.delete, hm]
    exact ⟨hs, hx⟩
  · rcases e₀ with _ | e₀
    · simp only [Cache.delete, hm]
      refine ⟨hs, fun r => ?_⟩
      simp only [mapRemove]
      by_cases hk : r.key = key
      · rw [if_pos hk]
        constructor
        · intro hr
          have := exact_expires_eq hx hr (hk ▸ hm)
          cases this
        · rintro ⟨v, hv⟩
          cases hv
      · rw [if_neg hk]
        exact hx r
    · simp only [Cache.delete, hm]
      refine ⟨pairwise_btRemove hs, fun r => ?_⟩
      simp only [mem_btRemove, mapRemove]
      by_cases hk : r.key = key
      · rw [if_pos hk]
        constructor
        · rintro ⟨hr, hne⟩
          exfalso
          have he : r.expires = e₀ :=
            (Option.some.inj (exact_expires_eq hx hr (hk ▸ hm))).symm
          apply hne
          cases r
          simp_all
        · rintro ⟨v, hv⟩
          cases hv
      · rw [if_neg hk]
        have hne : r ≠ ⟨e₀, key⟩ := fun h => hk (by rw [h])
        constructor
        · exact fun hr => (hx r).mp hr.1
        · exact fun hv => ⟨(hx r).mpr hv, hne⟩

theorem applyOp_inv {c : Cache K V} (h : CacheInv c) (op : Op K V) :
    CacheInv (applyOp c op) := by
  cases op with
  | put key value now => exact put_inv h key value now
  | put_exp key value expires now => exact put_exp_inv h key value expires now
  | get _ _ => exact h
  | delete key => exact delete_inv h key

theorem inv_empty : CacheInv (Cache.empty : Cache K V) := by
  refine ⟨List.Pairwise.nil, fun r => ?_⟩
  simp [Cache.empty]

theorem inv_foldl {c : Cache K V} (h : CacheInv c) (ops : List (Op K V)) :
    CacheInv (ops.foldl applyOp c) := by
  induction ops generalizing c with
  | nil => exact h
  | cons op ops ih => exact ih (applyOp_inv h op)

theorem inv_run (ops : List (Op K V)) : CacheInv (run ops) :=
  inv_foldl inv_empty ops

/-! ### Sweep completeness lemmas -/

theorem sweep_records_unexpired {c : Cache K V} {now : Nat}
    (hs : c.expirations.Pairwise expLt) :
    ∀ r ∈ (sweep c now).expirations, now < r.expires := by
  intro r hr
  rw [mem_sweep_exps] at hr
  by_contra hle
  exact hr.2 (mem_expiredItems_of_le hs hr.1 (le_of_not_lt hle))

theorem sweep_entries_unexpired {c : Cache K V} {now : Nat}
    (hs : c.expirations.Pairwise expLt)
    (hx : Exact c.map c.expirations) :
    ∀ k (v : V) e, (sweep c now).map k = some ⟨v, some e⟩ → now < e := by
  intro k v e hm
  rw [sweep_map_eq] at hm
  by_cases hp : ∃ item ∈ expiredItems c now, item.key = k
  · rw [if_pos hp] at hm
    cases hm
  · rw [if_neg hp] at hm
    have hr : (⟨e, k⟩ : Expiration K) ∈ c.expirations :=
      ((hx ⟨e, k⟩).mpr ⟨v, hm⟩)
    by_contra hle
    exact hp ⟨⟨e, k⟩, mem_expiredItems_of_le hs hr (le_of_not_lt hle), rfl⟩

theorem put_exp_expired_entry_removed {c : Cache K V} (h : CacheInv c)
    {key k : K} (hne : k ≠ key) {v' : V} {t : Nat}
    (hk : c.map k = some ⟨v', some t⟩) {value : V} {expires : Option Nat}
    {now : Nat} (hle : t ≤ now) :
    (c.put_exp key value expires now).map k = none := by
  have hp := insertPhase_pairwise h.1 key value expires
  have hxp := insertPhase_exact h key value expires
  have hm1 : (insertPhase c key value expires).map k = some ⟨v', some t⟩ := by
    simp only [insertPhase, mapInsert, if_neg hne]
    exact hk
  have hrec : (⟨t, k⟩ : Expiration K) ∈ (insertPhase c key value expires).expirations :=
    (hxp ⟨t, k⟩).mpr ⟨v', hm1⟩
  show (sweep (insertPhase c key value expires) now).map k = none
  rw [sweep_map_eq]
  rw [if_pos ⟨⟨t, k⟩, mem_expiredItems_of_le hp hrec hle, rfl⟩]

/-! ### Further structural helpers -/

theorem nodup_of_pairwise {l : List (Expiration K)}
    (hs : l.Pairwise expLt) : l.Nodup := by
  refine List.Pairwise.imp ?_ hs
  intro a b h heq
  exact expLt_irrefl a (heq ▸ h)

theorem record_key_unique {c : Cache K V} (h : CacheInv c)
    {r1 r2 : Expiration K} (h1 : r1 ∈ c.expirations) (h2 : r2 ∈ c.expirations)
    (hk : r1.key = r2.key) : r1 = r2 := by
  rcases (h.2 r1).mp h1 with ⟨v1, hv1⟩
  have he : r1.expires = r2.expires :=
    Option.some.inj (exact_expires_eq h.2 h2 (hk ▸ hv1))
  cases r1
  cases r2
  simp_all

theorem filter_length_le_one {α : Type} {p : α → Bool} {l : List α}
    (hd : l.Nodup)
    (hu : ∀ a ∈ l, ∀ b ∈ l, p a = true → p b = true → a = b) :
    (l.filter p).length ≤ 1 := by
  induction l with
  | nil => simp
  | cons x xs ih =>
    rcases List.nodup_cons.mp hd with ⟨hx, hxs⟩
    by_cases hp : p x = true
    · rw [List.filter_cons_of_pos hp]
      have hnil : xs.filter p = [] := by
        rw [List.filter_eq_nil_iff]
        intro a ha hpa
        exact hx ((hu a (List.mem_cons_of_mem _ ha) x (List.mem_cons_self _ _)
          hpa hp) ▸ ha)
      rw [hnil]
      simp
    · rw [List.filter_cons_of_neg (by simpa using hp)]
      exact ih hxs fun a ha b hb hpa hpb =>
        hu a (List.mem_cons_of_mem _ ha) b (List.mem_cons_of_mem _ hb) hpa hpb

theorem delete_absent {c : Cache K V} {k : K} (h : c.map k = none) :
    c.delete k = c := by
  simp only [Cache.delete, h]

theorem delete_map_self (c : Cache K V) (k : K) : (c.delete k).map k = none := by
  rcases hm : c.map k with _ | ⟨v₀, e₀⟩
  · rw [delete_absent hm]
    exact hm
  · rcases e₀ with _ | e₀ <;>
      simp [Cache.delete, hm, mapRemove]

theorem delete_map_other {c : Cache K V} {key k : K} (hne : key ≠ k) :
    (c.delete key).map k = c.map k := by
  have hkk : ¬ (k = key) := fun hh => hne hh.symm
  rcases hm : c.map key with _ | ⟨v₀, e₀⟩
  · rw [delete_absent hm]
  · rcases e₀ with _ | e₀ <;>
      simp [Cache.delete, hm, mapRemove, hkk]

theorem put_exp_map_self_kept {c : Cache K V} (h : CacheInv c) (key : K)
    (value : V) {expires : Option Nat} {now : Nat}
    (hun : ∀ t, expires = some t → now < t) :
    (c.put_exp key value expires now).map key = some ⟨value, expires⟩ := by
  have hxp := insertPhase_exact h key value expires
  have hm1 : (insertPhase c key value expires).map key = some ⟨value, expires⟩ := by
    simp [insertPhase, mapInsert]
  show (sweep (insertPhase c key value expires) now).map key = _
  rw [sweep_map_eq, if_neg ?_]
  · exact hm1
  · rintro ⟨item, hitem, hkey⟩
    have hmem : item ∈ (insertPhase c key value expires).expirations :=
      (expiredItems_sublist _ _).mem hitem
    have hmk : (insertPhase c key value expires).map item.key =
        some ⟨value, expires⟩ := by
      rw [hkey]
      exact hm1
    have he := exact_expires_eq hxp hmem hmk
    have hle := mem_expiredItems_le hitem
    have := hun item.expires he
    exact absurd hle (not_le_of_lt this)

theorem put_exp_map_other_noexp {c : Cache K V} (h : CacheInv c)
    {key k : K} (hne : key ≠ k) {v : V}
    (hk : c.map k = some ⟨v, none⟩) (value : V) (expires : Option Nat)
    (now : Nat) :
    (c.put_exp key value expires now).map k = some ⟨v, none⟩ := by
  have hkk : ¬ (k = key) := fun hh => hne hh.symm
  have hxp := insertPhase_exact h key value expires
  have hm1 : (insertPhase c key value expires).map k = some ⟨v, none⟩ := by
    simp only [insertPhase, mapInsert, if_neg hkk]
    exact hk
  show (sweep (insertPhase c key value expires) now).map k = _
  rw [sweep_map_eq, if_neg ?_]
  · exact hm1
  · rintro ⟨item, hitem, hkey⟩
    have hmem : item ∈ (insertPhase c key value expires).expirations :=
      (expiredItems_sublist _ _).mem hitem
    have hmk : (insertPhase c key value expires).map item.key =
        some ⟨v, none⟩ := by
      rw [hkey]
      exact hm1
    have he := exact_expires_eq hxp hmem hmk
    cases he

/-- An operation that stores to, or deletes, the key `k`; `get` never
mutates, so it is never interfering. -/
def touches (k : K) : Op K V → Prop
  | Op.put key _ _ => key = k
  | Op.put_exp key _ _ _ => key = k
  | Op.get _ _ => False
  | Op.delete key => key = k

theorem noexp_entry_preserved {k : K} {v : V} (l : List (Op K V)) :
    ∀ (d : Cache K V), CacheInv d → d.map k = some ⟨v, none⟩ →
      (∀ op ∈ l, ¬ touches k op) →
      CacheInv (l.foldl applyOp d) ∧
        (l.foldl applyOp d).map k = some ⟨v, none⟩ := by
  induction l with
  | nil => exact fun d hd hmap _ => ⟨hd, hmap⟩
  | cons op l ih =>
    intro d hd hmap hl
    have hop := hl op (List.mem_cons_self _ _)
    have hstep : CacheInv (applyOp d op) ∧
        (applyOp d op).map k = some ⟨v, none⟩ := by
      cases op with
      | put key value now =>
        have hne : key ≠ k := hop
        exact ⟨put_inv hd key value now,
          put_exp_map_other_noexp hd hne hmap value none now⟩
      | put_exp key value expires now =>
        have hne : key ≠ k := hop
        exact ⟨put_exp_inv hd key value expires now,
          put_exp_map_other_noexp hd hne hmap value expires now⟩
      | get _ _ => exact ⟨hd, hmap⟩
      | delete key =>
        have hne : key ≠ k := hop
        exact ⟨delete_inv hd key, (delete_map_other hne).trans hmap⟩
    exact ih _ hstep.1 hstep.2 fun op' hop' => hl op' (List.mem_cons_of_mem _ hop')

/-! ## Claims -/

/-- C1: sweep completeness. From any cache state satisfying the
representation invariant, after `put_exp` (and hence `put`, which is
`put_exp` with `none`) returns, no table entry whose expiration instant is
`<= now` remains in the table, and no expiration record with instant
`<= now` remains in the index. -/
theorem put_exp_sweep_complete {c : Cache K V} (h : CacheInv c)
    (key : K) (value : V) (expires : Option Nat) (now : Nat) :
    (∀ k (v : V) (t : Nat),
        (c.put_exp key value expires now).map k = some ⟨v, some t⟩ → now < t) ∧
    ∀ r ∈ (c.put_exp key value expires now).expirations, now < r.expires := by
  have hp := insertPhase_pairwise h.1 key value expires
  have hxp := insertPhase_exact h key value expires
  exact ⟨fun k v t hm => sweep_entries_unexpired hp hxp k v t hm,
         sweep_records_unexpired hp⟩

theorem put_exp_sweep_complete_witness :
    CacheInv (Cache.empty : Cache Nat Nat) ∧
    ((Cache.empty : Cache Nat Nat).put_exp 1 2 (some 7) 5).map 1 =
      some ⟨2, some 7⟩ ∧
    5 < 7 :=
  ⟨inv_empty, by decide,
    (put_exp_sweep_complete inv_empty 1 2 (some 7) 5).1 1 2 7 (by decide)⟩

/-- C2: index exactness invariant. After any sequence of operations from
the empty cache, the set of expiration records is exactly
`{ (e, k) : the table has an entry for k with expires = some e }`, with no
duplicate records. -/
theorem run_index_exact (ops : List (Op K V)) :
    (∀ (e : Nat) (k : K),
        (⟨e, k⟩ : Expiration K) ∈ (run ops).expirations ↔
          ∃ v, (run ops).map k = some ⟨v, some e⟩) ∧
    (run ops).expirations.Nodup := by
  have h := inv_run ops
  exact ⟨fun e k => h.2 ⟨e, k⟩, nodup_of_pairwise h.1⟩

/-- C3: `get` contract. `get key` returns the stored value exactly when an
entry exists for `key` and it either has no expiration or its expiration
instant is strictly greater than `now`; with an expiration `t`, it returns
the value when `now < t` and `none` when `t <= now`, independent of any
sweep. -/
theorem get_contract (c : Cache K V) (key : K) (now : Nat) (v : V) :
    c.get key now = some v ↔
      ∃ cv : CachedValue V, c.map key = some cv ∧ cv.value = v ∧
        (cv.expires = none ∨ ∃ t, cv.expires = some t ∧ now < t) := by
  unfold Cache.get
  rcases hm : c.map key with _ | ⟨val, exp⟩
  · simp
  · rcases exp with _ | t
    · simp
    · by_cases hle : t ≤ now
      · simp [hle, not_lt_of_le hle]
      · simp [hle, lt_of_not_le hle]

/-- C4: no eager eviction on read. The state transition of a `get`
operation is the identity: the table and the expiration index are exactly
the same before and after the call. -/
theorem get_no_mutation (c : Cache K V) (key : K) (now : Nat) :
    applyOp c (Op.get key now) = c :=
  rfl

/-- C5: replacement cleans prior expiration. If key `k` currently has an
entry with an expiration record, then after `put_exp k v e now` at most one
expiration record for `k` is in the index, and exactly zero when
`e = none`. -/
theorem put_exp_replace_cleans {c : Cache K V} (h : CacheInv c)
    {k : K} {v₀ : V} {e₀ : Nat} (hold : c.map k = some ⟨v₀, some e₀⟩)
    (v : V) (e : Option Nat) (now : Nat) :
    ((c.put_exp k v e now).expirations.filter
        (fun r => decide (r.key = k))).length ≤ 1 ∧
    (e = none →
      ((c.put_exp k v e now).expirations.filter
          (fun r => decide (r.key = k))).length = 0) := by
  have h' := put_exp_inv h k v e now
  constructor
  · apply filter_length_le_one (nodup_of_pairwise h'.1)
    intro a ha b hb hpa hpb
    simp only [decide_eq_true_eq] at hpa hpb
    exact record_key_unique h' ha hb (by rw [hpa, hpb])
  · rintro rfl
    rw [List.length_eq_zero, List.filter_eq_nil_iff]
    intro r hr
    simp only [decide_eq_true_eq]
    intro hk
    have hmap : (c.put_exp k v none now).map k = some ⟨v, none⟩ :=
      put_exp_map_self_kept h k v fun t ht => nomatch ht
    rcases (h'.2 r).mp hr with ⟨v', hv'⟩
    rw [hk, hmap] at hv'
    cases hv'

theorem put_exp_replace_cleans_witness :
    CacheInv ((Cache.empty : Cache Nat Nat).put_exp 1 2 (some 7) 0) ∧
    ((Cache.empty : Cache Nat Nat).put_exp 1 2 (some 7) 0).map 1 =
      some ⟨2, some 7⟩ ∧
    ((((Cache.empty : Cache Nat Nat).put_exp 1 2 (some 7) 0).put_exp 1 3
        none 0).expirations.filter (fun r => decide (r.key = 1))).length = 0 :=
  ⟨put_exp_inv inv_empty 1 2 (some 7) 0, by decide,
   (put_exp_replace_cleans (put_exp_inv inv_empty 1 2 (some 7) 0)
     (by decide :
       ((Cache.empty : Cache Nat Nat).put_exp 1 2 (some 7) 0).map 1 =
         some ⟨2, some 7⟩) 3 none 0).2 rfl⟩

/-- C6: round-trip. After `put k v` (no expiration), `get k` returns `v`,
and continues to do so after any sequence of operations none of which
stores to or deletes `k` (the entry has no expiration, so none can pass). -/
theorem put_round_trip {c : Cache K V} (h : CacheInv c) (k : K) (v : V)
    (now₀ : Nat) {ops : List (Op K V)} (hops : ∀ op ∈ ops, ¬ touches k op)
    (now' : Nat) :
    (ops.foldl applyOp (c.put k v now₀)).get k now' = some v := by
  have hmap0 : (c.put k v now₀).map k = some ⟨v, none⟩ :=
    put_exp_map_self_kept h k v fun t ht => nomatch ht
  have hfin := noexp_entry_preserved ops (c.put k v now₀)
    (put_inv h k v now₀) hmap0 hops
  simp [Cache.get, hfin.2]

theorem put_round_trip_witness :
    (([Op.put 5 9 0, Op.delete 5, Op.get 1 3] : List (Op Nat Nat)).foldl
        applyOp ((Cache.empty : Cache Nat Nat).put 1 4 0)).get 1 100 =
      some 4 :=
  put_round_trip inv_empty 1 4 0
    (by
      intro op hop
      rcases List.mem_cons.mp hop with rfl | hop
      · exact fun hh => absurd (show (5 : Nat) = 1 from hh) (by decide)
      rcases List.mem_cons.mp hop with rfl | hop
      · exact fun hh => absurd (show (5 : Nat) = 1 from hh) (by decide)
      rcases List.mem_cons.mp hop with rfl | hop
      · exact fun hh => hh
      · cases hop)
    100

/-- C7: delete semantics and idempotence. `delete k` removes `k` from the
table; if the entry had an expiration record, that record leaves the index;
deleting an absent key returns the cache unchanged, and deleting twice
equals deleting once. -/
theorem delete_contract (c : Cache K V) (k : K) :
    (c.delete k).map k = none ∧
    (c.map k = none → c.delete k = c) ∧
    (c.delete k).delete k = c.delete k ∧
    ∀ (v : V) (e : Nat), c.map k = some ⟨v, some e⟩ →
      (⟨e, k⟩ : Expiration K) ∉ (c.delete k).expirations := by
  refine ⟨delete_map_self c k, fun hh => delete_absent hh,
    delete_absent (delete_map_self c k), ?_⟩
  intro v e hm
  simp only [Cache.delete, hm]
  rw [mem_btRemove]
  rintro ⟨_, hne⟩
  exact hne rfl

theorem delete_contract_witness :
    ((Cache.empty : Cache Nat Nat).put_exp 1 2 (some 7) 0).map 1 =
      some ⟨2, some 7⟩ ∧
    (⟨7, 1⟩ : Expiration Nat) ∉
      (((Cache.empty : Cache Nat Nat).put_exp 1 2 (some 7) 0).delete 1).expirations :=
  ⟨by decide,
   (delete_contract ((Cache.empty : Cache Nat Nat).put_exp 1 2 (some 7) 0)
     1).2.2.2 2 7 (by decide)⟩

/-- C8: index ordering and tie-break. Two records with the identical
instant and distinct keys coexist as distinct index elements, and a
store-triggered sweep at `now >=` that instant removes both table
entries. -/
theorem tie_break_sweep {c : Cache K V} (h : CacheInv c) {k1 k2 : K}
    (hne : k1 ≠ k2) {v1 v2 : V} {t : Nat}
    (h1 : c.map k1 = some ⟨v1, some t⟩) (h2 : c.map k2 = some ⟨v2, some t⟩)
    {key : K} (hk1 : k1 ≠ key) (hk2 : k2 ≠ key) (value : V)
    (expires : Option Nat) {now : Nat} (hnow : t ≤ now) :
    (⟨t, k1⟩ : Expiration K) ∈ c.expirations ∧
    (⟨t, k2⟩ : Expiration K) ∈ c.expirations ∧
    (⟨t, k1⟩ : Expiration K) ≠ (⟨t, k2⟩ : Expiration K) ∧
    (c.put_exp key value expires now).map k1 = none ∧
    (c.put_exp key value expires now).map k2 = none :=
  ⟨(h.2 ⟨t, k1⟩).mpr ⟨v1, h1⟩, (h.2 ⟨t, k2⟩).mpr ⟨v2, h2⟩,
   fun hh => hne (congrArg Expiration.key hh),
   put_exp_expired_entry_removed h hk1 h1 hnow,
   put_exp_expired_entry_removed h hk2 h2 hnow⟩

theorem tie_break_sweep_witness :
    (⟨5, 1⟩ : Expiration Nat) ∈
      (((Cache.empty : Cache Nat Nat).put_exp 1 10 (some 5) 0).put_exp 2 20
        (some 5) 0).expirations ∧
    (⟨5, 2⟩ : Expiration Nat) ∈
      (((Cache.empty : Cache Nat Nat).put_exp 1 10 (some 5) 0).put_exp 2 20
        (some 5) 0).expirations ∧
    (⟨5, 1⟩ : Expiration Nat) ≠ (⟨5, 2⟩ : Expiration Nat) ∧
    ((((Cache.empty : Cache Nat Nat).put_exp 1 10 (some 5) 0).put_exp 2 20
        (some 5) 0).put_exp 3 0 none 5).map 1 = none ∧
    ((((Cache.empty : Cache Nat Nat).put_exp 1 10 (some 5) 0).put_exp 2 20
        (some 5) 0).put_exp 3 0 none 5).map 2 = none :=
  tie_break_sweep
    (put_exp_inv (put_exp_inv inv_empty 1 10 (some 5) 0) 2 20 (some 5) 0)
    (by decide)
    (by decide :
      (((Cache.empty : Cache Nat Nat).put_exp 1 10 (some 5) 0).put_exp 2 20
        (some 5) 0).map 1 = some ⟨10, some 5⟩)
    (by decide :
      (((Cache.empty : Cache Nat Nat).put_exp 1 10 (some 5) 0).put_exp 2 20
        (some 5) 0).map 2 = some ⟨20, some 5⟩)
    (by decide) (by decide) 0 none (by decide)

/-- C9: `put` and `put_exp` with `none` are extensionally the same
operation: `put key value` produces exactly the state of
`put_exp key value none` at the same observed time. -/
theorem put_eq_put_exp_none (c : Cache K V) (key : K) (value : V)
    (now : Nat) :
    c.put key value now = c.put_exp key value none now :=
  rfl

/-- C10: storing an already-expired entry. If `t <= now` at call time, then
after `put_exp k v (some t) now` the cache has no table entry and no
expiration record for `k`, and any subsequent `get k` returns `none`. -/
theorem put_exp_already_expired {c : Cache K V} (h : CacheInv c)
    (k : K) (v : V) {t now : Nat} (hle : t ≤ now) :
    (c.put_exp k v (some t) now).map k = none ∧
    (∀ r ∈ (c.put_exp k v (some t) now).expirations, r.key ≠ k) ∧
    ∀ now', (c.put_exp k v (some t) now).get k now' = none := by
  have hp := insertPhase_pairwise h.1 k v (some t)
  have hxp := insertPhase_exact h k v (some t)
  have hm1 : (insertPhase c k v (some t)).map k = some ⟨v, some t⟩ := by
    simp [insertPhase, mapInsert]
  have hrec : (⟨t, k⟩ : Expiration K) ∈
      (insertPhase c k v (some t)).expirations :=
    (hxp ⟨t, k⟩).mpr ⟨v, hm1⟩
  have hmap : (c.put_exp k v (some t) now).map k = none := by
    show (sweep (insertPhase c k v (some t)) now).map k = none
    rw [sweep_map_eq,
      if_pos ⟨⟨t, k⟩, mem_expiredItems_of_le hp hrec hle, rfl⟩]
  have h' := put_exp_inv h k v (some t) now
  refine ⟨hmap, ?_, ?_⟩
  · intro r hr hk
    rcases (h'.2 r).mp hr with ⟨v', hv'⟩
    rw [hk, hmap] at hv'
    cases hv'
  · intro now'
    simp [Cache.get, hmap]

theorem put_exp_already_expired_witness :
    CacheInv (Cache.empty : Cache Nat Nat) ∧
    ((Cache.empty : Cache Nat Nat).put_exp 1 2 (some 3) 5).map 1 = none ∧
    ((Cache.empty : Cache Nat Nat).put_exp 1 2 (some 3) 5).get 1 9 = none :=
  ⟨inv_empty, (put_exp_already_expired inv_empty 1 2 (by decide)).1,
   (put_exp_already_expired inv_empty 1 2 (by decide)).2.2 9⟩
